import Mathlib

/-!
# Verification of the Minesweeper inference engine (`src/minesweeper.py`)

A shallow embedding of the knowledge engine of the repository: the
`Sentence` class, the `MinesweeperAI` class (its global fact sets and the
`check_current_knowledge` / `forget_mines_or_safes` fixpoint procedure),
and the move-selection queries.

Modelling conventions:

* A board cell `(i, j)` is a pair of integers (Python ints).
* A Python `set` of cells is a `Finset Cell`; `Sentence.__eq__` compares
  the cell set and the count, which is exactly the derived `DecidableEq`.
* The engine's `knowledge` is a Python *list*, hence `List Sentence`
  (duplicates possible, order meaningful).  `list.remove(x)` removes the
  first element equal to `x`, which is `List.erase`; `list.insert(i, x)`
  clamps the index and is `pyInsert` below.
* The recursive procedure `check_current_knowledge` is embedded as a
  fuel-indexed step function `run` over call frames (`CallK`): the Python
  call terminates if and only if some fuel suffices (`run` is monotone in
  fuel, `run_mono`).  Each frame transition consumes one unit of fuel.
* The `while True` loop of `forget_mines_or_safes` provably terminates:
  every changed pass strictly shrinks the knowledge list, so
  `knowledge.length + 1` passes always suffice; `forgetLoop` is run with
  that bound (`forgetLoop_stable` shows any larger bound gives the same
  result, so the embedding does not depend on the choice).
* Python set iteration order is unspecified; where the code iterates a
  set (`for cell in sentence.cells`, `for cell in self.safes`) we iterate
  its elements in row-major order (`cellsList`).  The iterated operations
  (inserting cells into the fact sets and erasing them from every
  sentence) commute for distinct cells, so the choice of order does not
  affect any stated property.
* `random.randrange` sampling in `make_random_move` is modelled by an
  explicit stream of picks; the function returns the first pick accepted
  by the *source's* condition `(i, j) not in moves_made or (i, j) not in
  mines` (an `or`, faithfully kept).
-/

/-- A board coordinate `(row, col)`, a pair of Python ints. -/
abbrev Cell := (ℤ × ℤ)

/-- `class Sentence`: a cell set together with the asserted number of mines
among them.  `count` is a Python int, so `ℤ` (it can go negative during
resolution arithmetic). -/
structure Sentence where
  cells : Finset Cell
  count : ℤ
deriving DecidableEq

/-- `Sentence.known_mines`: the full cell set when `len(self.cells) ==
self.count`, else `None`. -/
def Sentence.known_mines (S : Sentence) : Option (Finset Cell) :=
  if (S.cells.card : ℤ) = S.count then some S.cells else none

/-- `Sentence.known_safes`: the full cell set when `self.count == 0`,
else `None`. -/
def Sentence.known_safes (S : Sentence) : Option (Finset Cell) :=
  if S.count = 0 then some S.cells else none

/-- `Sentence.mark_mine`: `cells.remove(cell); count -= 1`, where the
`KeyError` of an absent cell is caught and printed, i.e. a no-op. -/
def Sentence.mark_mine (S : Sentence) (c : Cell) : Sentence :=
  if c ∈ S.cells then ⟨S.cells.erase c, S.count - 1⟩ else S

/-- `Sentence.mark_safe`: `cells.remove(cell)` with the `KeyError`
caught, count unchanged. -/
def Sentence.mark_safe (S : Sentence) (c : Cell) : Sentence :=
  if c ∈ S.cells then ⟨S.cells.erase c, S.count⟩ else S

/-- The mutable state of `class MinesweeperAI`. -/
structure AIState where
  height : ℤ
  width : ℤ
  moves_made : Finset Cell
  mines : Finset Cell
  safes : Finset Cell
  knowledge : List Sentence
deriving DecidableEq

/-- `MinesweeperAI.__init__(height, width)`: a fresh engine. -/
def freshAI (h w : ℤ) : AIState :=
  ⟨h, w, ∅, ∅, ∅, []⟩

/-- `MinesweeperAI.mark_mine`: add to `self.mines` and call
`sentence.mark_mine` on every sentence in `self.knowledge`. -/
def AIState.mark_mine (s : AIState) (c : Cell) : AIState :=
  { s with mines := insert c s.mines,
           knowledge := s.knowledge.map (Sentence.mark_mine · c) }

/-- `MinesweeperAI.mark_safe`: add to `self.safes` and call
`sentence.mark_safe` on every sentence in `self.knowledge`. -/
def AIState.mark_safe (s : AIState) (c : Cell) : AIState :=
  { s with safes := insert c s.safes,
           knowledge := s.knowledge.map (Sentence.mark_safe · c) }

/-- Python `list.insert(i, x)`: insert at position `i`, clamped to the
list length (so an out-of-range index appends at the end). -/
def pyInsert (i : ℕ) (a : α) (l : List α) : List α :=
  l.take i ++ a :: l.drop i

/-- A linear order on cells (row-major), used only to fix a concrete
iteration order for Python's unordered set iteration. -/
def cellLe (a b : Cell) : Prop :=
  a.1 < b.1 ∨ (a.1 = b.1 ∧ a.2 ≤ b.2)

instance : DecidableRel cellLe := fun a b =>
  inferInstanceAs (Decidable (a.1 < b.1 ∨ (a.1 = b.1 ∧ a.2 ≤ b.2)))

instance : IsTrans Cell cellLe where
  trans a b c hab hbc := by
    rcases hab with h | ⟨h1, h2⟩ <;> rcases hbc with h' | ⟨h1', h2'⟩ <;>
      unfold cellLe <;> omega

instance : IsAntisymm Cell cellLe where
  antisymm a b hab hba := by
    rcases a with ⟨a1, a2⟩; rcases b with ⟨b1, b2⟩
    rcases hab with h | ⟨h1, h2⟩ <;> rcases hba with h' | ⟨h1', h2'⟩ <;>
      simp_all <;> omega

instance : IsTotal Cell cellLe where
  total a b := by unfold cellLe; omega

/-- Sorting a multiset of cells row-major: insertion sort of any
representative list (well defined because sorted permutations of each
other are equal). -/
def sortedCells (m : Multiset Cell) : List Cell :=
  Quot.liftOn m (fun l => l.insertionSort cellLe) (fun l₁ l₂ h =>
    List.eq_of_perm_of_sorted
      ((List.perm_insertionSort cellLe l₁).trans
        (h.trans (List.perm_insertionSort cellLe l₂).symm))
      (List.sorted_insertionSort cellLe l₁)
      (List.sorted_insertionSort cellLe l₂))

/-- Iterate a Python set of cells: its elements in row-major order. -/
def cellsList (s : Finset Cell) : List Cell :=
  sortedCells s.val

/-- Iterating a cell set visits exactly its members. -/
theorem mem_cellsList (s : Finset Cell) (a : Cell) :
    a ∈ cellsList s ↔ a ∈ s := by
  rcases s with ⟨m, hm⟩
  induction m using Quot.inductionOn with
  | h l =>
      show a ∈ l.insertionSort cellLe ↔ _
      rw [(List.perm_insertionSort cellLe l).mem_iff]
      simp [Finset.mem_mk, Multiset.mem_coe]

/-- Mark every cell of a list as a mine (the `for cell in
new_sentence.cells: self.mark_mine(cell)` loop). -/
def markCellsMine (s : AIState) (cs : List Cell) : AIState :=
  cs.foldl AIState.mark_mine s

/-- Mark every cell of a list as safe. -/
def markCellsSafe (s : AIState) (cs : List Cell) : AIState :=
  cs.foldl AIState.mark_safe s

/-- One iteration of the `while True` body of
`MinesweeperAI.forget_mines_or_safes`: scan `knowledge`, removing every
sentence whose `known_mines()` is not `None` (collected in
`confirm_mines`) and, `elif`, every one whose `known_safes()` is not
`None` (collected in `confirm_safes`); then mark every cell of each
collected sentence.  Returns the new state and whether the pass removed
anything (`not is_unchanged`). -/
def forgetStep (s : AIState) : AIState × Bool :=
  let cm := s.knowledge.filter (fun S => S.known_mines.isSome)
  let cs := s.knowledge.filter
    (fun S => S.known_mines.isNone && S.known_safes.isSome)
  let kept := s.knowledge.filter
    (fun S => S.known_mines.isNone && S.known_safes.isNone)
  let s1 := { s with knowledge := kept }
  let s2 := cm.foldl (fun t S => markCellsMine t (cellsList S.cells)) s1
  let s3 := cs.foldl (fun t S => markCellsSafe t (cellsList S.cells)) s2
  (s3, !(cm.isEmpty && cs.isEmpty))

/-- The `while True` loop of `forget_mines_or_safes`, indexed by the
number of remaining passes. -/
def forgetLoop : ℕ → AIState → AIState
  | 0, s => s
  | n + 1, s =>
      let r := forgetStep s
      if r.2 then forgetLoop n r.1 else r.1

/-- `MinesweeperAI.forget_mines_or_safes`.  Every changed pass strictly
shrinks `knowledge`, so `knowledge.length + 1` passes reach the
fixpoint (`forgetLoop_stable` below). -/
def forget_mines_or_safes (s : AIState) : AIState :=
  forgetLoop (s.knowledge.length + 1) s

/-- The inner `for another_sentence in self.knowledge[:]` loop of
`check_current_knowledge`.  Arguments: the running `existing_sentence`
`E` (rebound when it is a strict superset), the remaining snapshot, the
current `knowledge` (with `E` already removed), and the running
`is_unchanged` flag (as `changed`).  When `E.cells` is a strict subset
of a snapshot sentence `A`'s cells, `A` is removed from `knowledge` and
the resolvent `(A.cells - E.cells, A.count - E.count)` appended. -/
def innerLoop :
    Sentence → List Sentence → List Sentence → Bool →
      Sentence × List Sentence × Bool
  | E, [], kn, ch => (E, kn, ch)
  | E, A :: rest, kn, ch =>
      if E.cells ⊂ A.cells then
        innerLoop E rest
          (kn.erase A ++ [⟨A.cells \ E.cells, A.count - E.count⟩]) true
      else if A.cells ⊂ E.cells then
        innerLoop ⟨E.cells \ A.cells, E.count - A.count⟩ rest kn true
      else
        innerLoop E rest kn ch

/-- A call frame of the recursive `check_current_knowledge`: either the
function entry (`check`), or the outer `for index, existing_sentence in
enumerate(knowledge_copy)` loop with its remaining snapshot and current
index (`outer`).  (Rebinding `knowledge_copy` inside the loop does not
affect the iterator Python captured at loop entry, so the snapshot is
fixed.) -/
inductive CallK where
  | check (s : AIState)
  | outer (snap : List Sentence) (idx : ℕ) (s : AIState)

/-- One outer-loop iteration body of `check_current_knowledge`: remove
`existing_sentence` from `knowledge` (`list.remove`, first equal
element) and run the inner loop over a snapshot of the remainder.
Returns the final `existing_sentence`, the resulting `knowledge`, and
whether anything changed. -/
def outerStep (E0 : Sentence) (kn : List Sentence) :
    Sentence × List Sentence × Bool :=
  innerLoop E0 (kn.erase E0) (kn.erase E0) false

/-- Small-step interpreter for `check_current_knowledge`, one unit of
fuel per frame transition; `none` means the fuel ran out (the Python
call has not returned yet).  On function entry `forget_mines_or_safes`
runs, then the outer loop iterates the snapshot: each iteration runs
`outerStep` and either re-inserts the sentence at `index + 1` when
nothing changed, or appends it, recurses, and breaks. -/
def run : ℕ → CallK → Option AIState
  | 0, _ => none
  | n + 1, .check s =>
      run n (.outer (forget_mines_or_safes s).knowledge 0
        (forget_mines_or_safes s))
  | _ + 1, .outer [] _ s => some s
  | n + 1, .outer (E0 :: rest) idx s =>
      match outerStep E0 s.knowledge with
      | (E, kn, true) => run n (.check { s with knowledge := kn ++ [E] })
      | (E, kn, false) =>
          run n (.outer rest (idx + 1)
            { s with knowledge := pyInsert (idx + 1) E kn })

/-- `MinesweeperAI.check_current_knowledge`, with the given fuel. -/
def check_current_knowledge (fuel : ℕ) (s : AIState) : Option AIState :=
  run fuel (.check s)

/-- The Python call `self.check_current_knowledge()` terminates exactly
when some finite fuel suffices. -/
def CheckTerminates (s : AIState) : Prop :=
  ∃ fuel, (check_current_knowledge fuel s).isSome = true

/-- The eight neighbour positions the `for i ... for j ...` loops of
`create_sentence` (and `nearby_mines`) visit, the centre excluded, in
loop order. -/
def neighborOffsets (c : Cell) : List Cell :=
  [(c.1 - 1, c.2 - 1), (c.1 - 1, c.2), (c.1 - 1, c.2 + 1),
   (c.1, c.2 - 1), (c.1, c.2 + 1),
   (c.1 + 1, c.2 - 1), (c.1 + 1, c.2), (c.1 + 1, c.2 + 1)]

/-- The bounds check `0 <= i < self.height and 0 <= j < self.width`. -/
def inBounds (h w : ℤ) (c : Cell) : Bool :=
  decide (0 ≤ c.1) && decide (c.1 < h) && decide (0 ≤ c.2) && decide (c.2 < w)

/-- The in-bounds neighbours of a cell, in loop order. -/
def neighborsList (h w : ℤ) (c : Cell) : List Cell :=
  (neighborOffsets c).filter (inBounds h w)

/-- `Minesweeper.nearby_mines`: the true number of mines (the board's
mine set `M`) among the in-bounds neighbours of `c`. -/
def nearby_mines (h w : ℤ) (M : Finset Cell) (c : Cell) : ℤ :=
  (((neighborsList h w c).filter (fun x => decide (x ∈ M))).length : ℤ)

/-- `MinesweeperAI.create_sentence(cell, count)`: every in-bounds
neighbour already in `self.mines` decrements `count` and is excluded;
neighbours in `self.safes` are excluded; the rest form the cell set. -/
def create_sentence (s : AIState) (cell : Cell) (count : ℤ) : Sentence :=
  let nbrs := neighborsList s.height s.width cell
  ⟨(nbrs.filter (fun c => decide (c ∉ s.mines ∧ c ∉ s.safes))).toFinset,
   count - ((nbrs.filter (fun c => decide (c ∈ s.mines))).length : ℤ)⟩

/-- `MinesweeperAI.add_knowledge(cell, count)`: record the move, mark the
cell safe, fixpoint, build the clue sentence, drop it if an equal
sentence is already present, otherwise append and fixpoint again.  Both
fixpoint calls use the given fuel; `none` propagates fuel exhaustion. -/
def add_knowledge (fuel : ℕ) (s : AIState) (cell : Cell) (count : ℤ) :
    Option AIState :=
  match run fuel (.check (AIState.mark_safe
      { s with moves_made := insert cell s.moves_made } cell)) with
  | none => none
  | some s2 =>
      if create_sentence s2 cell count ∈ s2.knowledge then some s2
      else run fuel (.check { s2 with knowledge :=
        s2.knowledge ++ [create_sentence s2 cell count] })

/-- A sequence of `add_knowledge` calls. -/
def applyClues (fuel : ℕ) : AIState → List (Cell × ℤ) → Option AIState
  | s, [] => some s
  | s, (c, k) :: rest =>
      match add_knowledge fuel s c k with
      | none => none
      | some s' => applyClues fuel s' rest

/-- `MinesweeperAI.make_safe_move`: `None` when `safes` is empty,
otherwise the first cell of `safes` (set iteration, modelled by
`Finset.toList`) not in `moves_made`; `None` when the loop falls
through.  Read-only: it takes the state and returns only a cell. -/
def make_safe_move (s : AIState) : Option Cell :=
  if s.safes.card = 0 then none
  else (cellsList s.safes).find? (fun c => decide (c ∉ s.moves_made))

/-- The acceptance test of the `while True` loop of
`MinesweeperAI.make_random_move`, as written in the source:
`(i, j) not in self.moves_made or (i, j) not in self.mines`. -/
def randomAccepts (s : AIState) (c : Cell) : Bool :=
  decide (c ∉ s.moves_made) || decide (c ∉ s.mines)

/-- `MinesweeperAI.make_random_move`, the random draws supplied as an
explicit stream: `None` when `len(moves_made) + len(mines) == height *
width`, otherwise the first accepted pick (`none` here meaning the loop
is still drawing). -/
def make_random_move (s : AIState) (picks : List Cell) : Option Cell :=
  if ((s.moves_made.card : ℤ) + (s.mines.card : ℤ) = s.height * s.width) then
    none
  else picks.find? (randomAccepts s)

/-- A clue list is truthful for mine set `M` on an `h × w` board: each
clue names a non-mine cell and reports its true neighbour-mine count. -/
def TruthfulClues (h w : ℤ) (M : Finset Cell) (clues : List (Cell × ℤ)) :
    Prop :=
  ∀ p ∈ clues, p.1 ∉ M ∧ p.2 = nearby_mines h w M p.1

instance (h w : ℤ) (M : Finset Cell) (clues : List (Cell × ℤ)) :
    Decidable (TruthfulClues h w M clues) :=
  inferInstanceAs
    (Decidable (∀ p ∈ clues, p.1 ∉ M ∧ p.2 = nearby_mines h w M p.1))

/-- A sentence is sound for mine set `M` and fact sets `mi`, `sa`: its
count is the exact number of its cells lying in `M`, and none of its
cells has already been resolved into either fact set. -/
def SentOK (M mi sa : Finset Cell) (S : Sentence) : Prop :=
  ((S.cells ∩ M).card : ℤ) = S.count ∧ ∀ c ∈ S.cells, c ∉ mi ∧ c ∉ sa

/-- Engine soundness for mine set `M`: every proven mine is a mine,
every proven safe is not, and every retained sentence is sound. -/
def SoundInv (M : Finset Cell) (s : AIState) : Prop :=
  s.mines ⊆ M ∧ (∀ c ∈ s.safes, c ∉ M) ∧
    ∀ S ∈ s.knowledge, SentOK M s.mines s.safes S

/-- Soundness of a call frame: soundness of its state, and of every
pending snapshot sentence of the outer loop. -/
def SoundFrame (M : Finset Cell) : CallK → Prop
  | .check s => SoundInv M s
  | .outer snap _ s =>
      SoundInv M s ∧ ∀ S ∈ snap, SentOK M s.mines s.safes S

/-- The state carried by a call frame. -/
def CallK.state : CallK → AIState
  | .check s => s
  | .outer _ _ s => s

/-- What every engine operation preserves about the non-knowledge
fields: the board dimensions and `moves_made` never change, and the two
proven-fact sets only grow. -/
def FramePres (s t : AIState) : Prop :=
  t.height = s.height ∧ t.width = s.width ∧ t.moves_made = s.moves_made ∧
    s.mines ⊆ t.mines ∧ s.safes ⊆ t.safes

/-- The cell set of the diverging family's non-empty sentence. -/
def badCells : Finset Cell := {((0:ℤ), (0:ℤ)), ((0:ℤ), (1:ℤ)), ((0:ℤ), (2:ℤ))}

/-- Diverging family of states, the empty-celled sentence first. -/
def famD (c : ℤ) : AIState := ⟨8, 8, ∅, ∅, ∅, [⟨∅, 2⟩, ⟨badCells, c⟩]⟩

/-- Diverging family of states, the empty-celled sentence second. -/
def famC (c : ℤ) : AIState := ⟨8, 8, ∅, ∅, ∅, [⟨badCells, c⟩, ⟨∅, 2⟩]⟩

/-! ## Single-step equations and fuel monotonicity -/

/-- `run` at a function-entry frame: `forget_mines_or_safes`, then the
outer loop over the snapshot. -/
theorem run_check_eq (n : ℕ) (s : AIState) :
    run (n + 1) (.check s) =
      run n (.outer (forget_mines_or_safes s).knowledge 0
        (forget_mines_or_safes s)) := rfl

/-- `run` when the outer loop is exhausted: the call returns. -/
theorem run_outer_nil_eq (n idx : ℕ) (s : AIState) :
    run (n + 1) (.outer [] idx s) = some s := rfl

/-- `run` at an outer-loop iteration whose inner loop changed something:
append the updated sentence, recurse, break. -/
theorem run_outer_changed_eq (n idx : ℕ) (E0 : Sentence)
    (rest : List Sentence) (s : AIState) (E : Sentence) (kn : List Sentence)
    (hr : outerStep E0 s.knowledge = (E, kn, true)) :
    run (n + 1) (.outer (E0 :: rest) idx s) =
      run n (.check { s with knowledge := kn ++ [E] }) := by
  show (match outerStep E0 s.knowledge with
    | (E, kn, true) => run n (.check { s with knowledge := kn ++ [E] })
    | (E, kn, false) =>
        run n (.outer rest (idx + 1)
          { s with knowledge := pyInsert (idx + 1) E kn })) = _
  rw [hr]

/-- `run` at an outer-loop iteration whose inner loop changed nothing:
re-insert the sentence at `index + 1` and continue the loop. -/
theorem run_outer_unchanged_eq (n idx : ℕ) (E0 : Sentence)
    (rest : List Sentence) (s : AIState) (E : Sentence) (kn : List Sentence)
    (hr : outerStep E0 s.knowledge = (E, kn, false)) :
    run (n + 1) (.outer (E0 :: rest) idx s) =
      run n (.outer rest (idx + 1)
        { s with knowledge := pyInsert (idx + 1) E kn }) := by
  show (match outerStep E0 s.knowledge with
    | (E, kn, true) => run n (.check { s with knowledge := kn ++ [E] })
    | (E, kn, false) =>
        run n (.outer rest (idx + 1)
          { s with knowledge := pyInsert (idx + 1) E kn })) = _
  rw [hr]

/-- More fuel never changes a result that was already reached. -/
theorem run_mono : ∀ (n : ℕ) (k : CallK) (s' : AIState),
    run n k = some s' → run (n + 1) k = some s'
  | 0, _, _, h => by simp [run] at h
  | n + 1, .check s, s', h => by
      rw [run_check_eq] at h
      rw [run_check_eq]
      exact run_mono n _ s' h
  | n + 1, .outer [] idx s, s', h => h
  | n + 1, .outer (E0 :: rest) idx s, s', h => by
      rcases hr : outerStep E0 s.knowledge with ⟨E, kn, ch⟩
      cases ch
      · rw [run_outer_unchanged_eq n idx E0 rest s E kn hr] at h
        rw [run_outer_unchanged_eq (n + 1) idx E0 rest s E kn hr]
        exact run_mono n _ s' h
      · rw [run_outer_changed_eq n idx E0 rest s E kn hr] at h
        rw [run_outer_changed_eq (n + 1) idx E0 rest s E kn hr]
        exact run_mono n _ s' h

/-- Fuel monotonicity, for any larger fuel bound. -/
theorem run_mono_le (n m : ℕ) (k : CallK) (s' : AIState)
    (hnm : n ≤ m) (h : run n k = some s') : run m k = some s' := by
  induction m with
  | zero =>
      have hn : n = 0 := by omega
      subst hn; exact h
  | succ m ih =>
      by_cases hc : n = m + 1
      · subst hc; exact h
      · exact run_mono m k s' (ih (by omega))

/-! ## C3: certainty laws -/

/-- C3 counterexample: a Sentence with an empty cell set and count `1`
satisfies neither certainty test — `known_mines()` and `known_safes()`
both return `None` — so the claim that every empty-celled Sentence
satisfies both is false. -/
theorem empty_sentence_not_both :
    (Sentence.mk ∅ 1).known_mines = none ∧
    (Sentence.mk ∅ 1).known_safes = none := by
  decide

/-- C3 (amended): `known_mines()` is non-`None` iff `count = |cells|`,
`known_safes()` is non-`None` iff `count = 0`; a Sentence with an empty
cell set *and count 0* satisfies both, and the certainty-extraction pass
applied to a knowledge base holding exactly that Sentence discards it
without adding any cell to `mines` or `safes`. -/
theorem certainty_laws (S : Sentence) (s : AIState)
    (hk : s.knowledge = [⟨∅, 0⟩]) :
    (S.known_mines ≠ none ↔ (S.cells.card : ℤ) = S.count) ∧
    (S.known_safes ≠ none ↔ S.count = 0) ∧
    (Sentence.mk ∅ 0).known_mines ≠ none ∧
    (Sentence.mk ∅ 0).known_safes ≠ none ∧
    forget_mines_or_safes s = { s with knowledge := [] } := by
  refine ⟨?_, ?_, by decide, by decide, ?_⟩
  · unfold Sentence.known_mines
    split <;> simp_all
  · unfold Sentence.known_safes
    split <;> simp_all
  · rcases s with ⟨h, w, mm, mi, sa, kn⟩
    simp only at hk
    subst hk
    rfl

/-- C3 witness: the certainty pass on the knowledge base `[{} = 0]`
empties it while leaving the fact sets untouched. -/
theorem certainty_laws_witness :
    (⟨8, 8, ∅, ∅, ∅, [⟨∅, 0⟩]⟩ : AIState).knowledge = [⟨∅, 0⟩] ∧
    forget_mines_or_safes ⟨8, 8, ∅, ∅, ∅, [⟨∅, 0⟩]⟩
      = { (⟨8, 8, ∅, ∅, ∅, [⟨∅, 0⟩]⟩ : AIState) with knowledge := [] } :=
  ⟨rfl, (certainty_laws ⟨{((0:ℤ), (0:ℤ))}, 1⟩ _ rfl).2.2.2.2⟩

/-! ## C4: the `or` in `make_random_move` -/

/-- C4 (code bug): on a 1×2 board with `moves_made = {(0,0)}` and no
known mines, the board is not fully accounted for (the guard is false),
yet the source's acceptance condition — an `or` where the docstring
requires both conjuncts — accepts the already-played cell `(0, 0)`, so
the loop can return a cell that is in `moves_made`. -/
theorem make_random_move_or_bug :
    ¬ (((⟨1, 2, {((0:ℤ), (0:ℤ))}, ∅, {((0:ℤ), (0:ℤ))}, []⟩ : AIState).moves_made.card : ℤ)
        + (((⟨1, 2, {((0:ℤ), (0:ℤ))}, ∅, {((0:ℤ), (0:ℤ))}, []⟩ : AIState).mines.card : ℤ)
          : ℤ) = 1 * 2) ∧
    make_random_move ⟨1, 2, {((0:ℤ), (0:ℤ))}, ∅, {((0:ℤ), (0:ℤ))}, []⟩
        [((0:ℤ), (0:ℤ))] = some ((0:ℤ), (0:ℤ)) ∧
    ((0:ℤ), (0:ℤ)) ∈ (⟨1, 2, {((0:ℤ), (0:ℤ))},
        ∅, {((0:ℤ), (0:ℤ))}, []⟩ : AIState).moves_made := by
  decide

/-! ## C8: Sentence mutation laws -/

/-- C8: `markMine` removes the cell and decrements the count exactly when
the cell is present, `markSafe` removes it with the count unchanged, and
both are total no-ops on an absent cell (the `KeyError` is caught): the
cell set always becomes `cells.erase c` (which is `cells` itself when
`c` is absent) and the count changes only for a present `markMine`. -/
theorem sentence_mark_laws (S : Sentence) (c : Cell) :
    (S.mark_mine c).cells = S.cells.erase c ∧
    (S.mark_safe c).cells = S.cells.erase c ∧
    (S.mark_safe c).count = S.count ∧
    (S.mark_mine c).count = S.count - (if c ∈ S.cells then 1 else 0) := by
  unfold Sentence.mark_mine Sentence.mark_safe
  by_cases h : c ∈ S.cells
  · simp [h]
  · simp [h, Finset.erase_eq_of_not_mem h]

/-! ## C9: `make_safe_move` -/

/-- C9: `make_safe_move` returns only cells that are proven safe and not
yet played, and returns `None` exactly when every safe cell has been
played (in particular when no safe cell is known, or `safes ⊆
moves_made`).  The embedding is a pure function of the state, so it
mutates none of the fact sets. -/
theorem make_safe_move_spec (s : AIState) :
    (∀ c, make_safe_move s = some c → c ∈ s.safes ∧ c ∉ s.moves_made) ∧
    (make_safe_move s = none ↔ ∀ c ∈ s.safes, c ∈ s.moves_made) := by
  unfold make_safe_move
  by_cases h0 : s.safes.card = 0
  · have he : s.safes = ∅ := Finset.card_eq_zero.mp h0
    simp [h0, he]
  · simp only [h0, if_false]
    constructor
    · intro c hc
      have hmem := List.mem_of_find?_eq_some hc
      have hp := List.find?_some hc
      rw [mem_cellsList] at hmem
      exact ⟨hmem, of_decide_eq_true hp⟩
    · rw [List.find?_eq_none]
      constructor
      · intro hall c hc
        have := hall c ((mem_cellsList _ _).mpr hc)
        simpa using this
      · intro hall c hc
        rw [mem_cellsList] at hc
        simpa using hall c hc

/-- C9 witness: with `safes = {(0,0), (0,1)}` and `moves_made = {(0,0)}`
the returned cell is safe and unplayed. -/
theorem make_safe_move_witness :
    ((0:ℤ), (1:ℤ)) ∈ ({((0:ℤ), (0:ℤ)), ((0:ℤ), (1:ℤ))} : Finset Cell) ∧
    ((0:ℤ), (1:ℤ)) ∉ ({((0:ℤ), (0:ℤ))} : Finset Cell) :=
  (make_safe_move_spec
      ⟨8, 8, {((0:ℤ), (0:ℤ))}, ∅, {((0:ℤ), (0:ℤ)), ((0:ℤ), (1:ℤ))}, []⟩).1
    ((0:ℤ), (1:ℤ)) (by decide)

/-! ## C5: duplicate sentences -/

/-- C5 counterexample: on a fresh 8×8 engine, the clue sequence
`(0,0) = 1`, `(0,1) = 2`, `(0,1) = 2` leaves the knowledge collection
with two equal Sentences (`{(1,0), (1,1)} = 1` twice): the third clue's
sentence resolves against a derived sentence into an exact copy of an
already-retained one, and resolution-derived sentences are never
deduplicated. -/
theorem knowledge_duplicates_counterexample :
    (applyClues 8 (freshAI 8 8)
        [(((0:ℤ), (0:ℤ)), (1:ℤ)), (((0:ℤ), (1:ℤ)), 2),
         (((0:ℤ), (1:ℤ)), 2)]).map
      (fun s => decide s.knowledge.Nodup) = some false := by
  decide

/-- C5 (amended): insertion-time duplicate suppression does hold —
whenever the Sentence built from a clue is equal (same cell set and
count) to one already present, `add_knowledge` returns without appending
it, so the knowledge collection does not grow; but Sentences *derived by
subset resolution* are not deduplicated, so two equal Sentences can end
up retained (see the counterexample). -/
theorem duplicate_clue_not_added (fuel : ℕ) (s : AIState) (cell : Cell)
    (count : ℤ) (s2 : AIState)
    (h1 : run fuel (.check (AIState.mark_safe
      { s with moves_made := insert cell s.moves_made } cell)) = some s2)
    (h2 : create_sentence s2 cell count ∈ s2.knowledge) :
    add_knowledge fuel s cell count = some s2 := by
  unfold add_knowledge
  rw [h1]
  simp [h2]

/-- C5 witness: a 2×2 engine already holding `{(0,1),(1,0),(1,1)} = 1`
receives the clue `(0,0) = 1`, which rebuilds exactly that Sentence; the
collection is left unchanged. -/
theorem duplicate_clue_not_added_witness :
    run 8 (.check (AIState.mark_safe
        { (⟨2, 2, ∅, ∅, ∅, [⟨{((0:ℤ), (1:ℤ)), (1, 0), (1, 1)}, 1⟩]⟩ : AIState)
          with moves_made := insert ((0:ℤ), (0:ℤ)) ∅ } ((0:ℤ), (0:ℤ))))
      = some ⟨2, 2, {((0:ℤ), (0:ℤ))}, ∅, {((0:ℤ), (0:ℤ))},
          [⟨{((0:ℤ), (1:ℤ)), (1, 0), (1, 1)}, 1⟩]⟩ ∧
    create_sentence
        ⟨2, 2, {((0:ℤ), (0:ℤ))}, ∅, {((0:ℤ), (0:ℤ))},
          [⟨{((0:ℤ), (1:ℤ)), (1, 0), (1, 1)}, 1⟩]⟩ ((0:ℤ), (0:ℤ)) 1
      ∈ [Sentence.mk {((0:ℤ), (1:ℤ)), (1, 0), (1, 1)} 1] ∧
    add_knowledge 8 ⟨2, 2, ∅, ∅, ∅, [⟨{((0:ℤ), (1:ℤ)), (1, 0), (1, 1)}, 1⟩]⟩
        ((0:ℤ), (0:ℤ)) 1
      = some ⟨2, 2, {((0:ℤ), (0:ℤ))}, ∅, {((0:ℤ), (0:ℤ))},
          [⟨{((0:ℤ), (1:ℤ)), (1, 0), (1, 1)}, 1⟩]⟩ :=
  ⟨by decide, by decide,
    duplicate_clue_not_added 8 _ _ 1 _ (by decide) (by decide)⟩

/-! ## C2: divergence of the fixpoint procedure -/

/-- Neither sentence of the family is certain while `c ∉ {0, 3}`, so the
certainty-extraction pass leaves a `famD` state unchanged. -/
theorem forgetStep_famD (c : ℤ) (h1 : c ≤ 1) (h2 : c ≠ 0) :
    forgetStep (famD c) = (famD c, false) := by
  have e1 : (Sentence.mk ∅ 2).known_mines = none := by decide
  have e2 : (Sentence.mk ∅ 2).known_safes = none := by decide
  have e3 : (Sentence.mk badCells c).known_mines = none := by
    have hc : ¬ ((badCells.card : ℤ) = c) := by
      rw [show (badCells.card : ℤ) = 3 from by decide]; omega
    show (if (badCells.card : ℤ) = c then some badCells else none) = none
    exact if_neg hc
  have e4 : (Sentence.mk badCells c).known_safes = none := by
    show (if c = 0 then some badCells else none) = none
    exact if_neg h2
  unfold forgetStep famD
  simp [List.filter, e1, e2, e3, e4]

/-- The certainty-extraction pass also leaves a `famC` state unchanged. -/
theorem forgetStep_famC (c : ℤ) (h1 : c ≤ 1) (h2 : c ≠ 0) :
    forgetStep (famC c) = (famC c, false) := by
  have e1 : (Sentence.mk ∅ 2).known_mines = none := by decide
  have e2 : (Sentence.mk ∅ 2).known_safes = none := by decide
  have e3 : (Sentence.mk badCells c).known_mines = none := by
    have hc : ¬ ((badCells.card : ℤ) = c) := by
      rw [show (badCells.card : ℤ) = 3 from by decide]; omega
    show (if (badCells.card : ℤ) = c then some badCells else none) = none
    exact if_neg hc
  have e4 : (Sentence.mk badCells c).known_safes = none := by
    show (if c = 0 then some badCells else none) = none
    exact if_neg h2
  unfold forgetStep famC
  simp [List.filter, e1, e2, e3, e4]

/-- From a `famD` state, two interpreter steps reach the `famC` state
with the non-empty sentence's count lowered by 2: the empty cell set is
a strict subset of `badCells`, so resolution replaces the sentence by
`(badCells - {}, c - 2)` — same cells, smaller count — and recurses. -/
theorem famD_step (n : ℕ) (c : ℤ) (h1 : c ≤ 1) (h2 : c ≠ 0) :
    run (n + 2) (.check (famD c)) = run n (.check (famC (c - 2))) := by
  have hf : forget_mines_or_safes (famD c) = famD c := by
    show forgetLoop ((famD c).knowledge.length + 1) (famD c) = famD c
    rw [show (famD c).knowledge.length + 1 = 3 from rfl]
    unfold forgetLoop
    rw [forgetStep_famD c h1 h2]
    simp
  have ho : outerStep ⟨∅, 2⟩ (famD c).knowledge
      = (⟨∅, 2⟩, [⟨badCells, c - 2⟩], true) := by
    unfold outerStep
    rw [show (famD c).knowledge = [⟨∅, 2⟩, ⟨badCells, c⟩] from rfl]
    rw [List.erase_cons_head]
    unfold innerLoop
    have hss : (∅ : Finset Cell) ⊂ badCells := by decide
    rw [if_pos
      (hss : (Sentence.mk ∅ 2).cells ⊂ (Sentence.mk badCells c).cells)]
    unfold innerLoop
    rw [List.erase_cons_head]
    simp
  rw [run_check_eq, hf]
  rw [show (famD c).knowledge = [⟨∅, 2⟩, ⟨badCells, c⟩] from rfl]
  rw [run_outer_changed_eq n 0 ⟨∅, 2⟩ [⟨badCells, c⟩] (famD c)
    ⟨∅, 2⟩ [⟨badCells, c - 2⟩] ho]
  rfl

/-- From a `famC` state, two interpreter steps reach the `famD` state
with the count again lowered by 2 (the `elif` branch fires: the empty
cell set is a strict subset of the iterated sentence's). -/
theorem famC_step (n : ℕ) (c : ℤ) (h1 : c ≤ 1) (h2 : c ≠ 0) :
    run (n + 2) (.check (famC c)) = run n (.check (famD (c - 2))) := by
  have hf : forget_mines_or_safes (famC c) = famC c := by
    show forgetLoop ((famC c).knowledge.length + 1) (famC c) = famC c
    rw [show (famC c).knowledge.length + 1 = 3 from rfl]
    unfold forgetLoop
    rw [forgetStep_famC c h1 h2]
    simp
  have ho : outerStep ⟨badCells, c⟩ (famC c).knowledge
      = (⟨badCells, c - 2⟩, [⟨∅, 2⟩], true) := by
    unfold outerStep
    rw [show (famC c).knowledge = [⟨badCells, c⟩, ⟨∅, 2⟩] from rfl]
    rw [List.erase_cons_head]
    unfold innerLoop
    have hns : ¬ (badCells ⊂ (∅ : Finset Cell)) := by decide
    rw [if_neg
      (hns : ¬ ((Sentence.mk badCells c).cells ⊂ (Sentence.mk ∅ 2).cells))]
    have hss : (∅ : Finset Cell) ⊂ badCells := by decide
    rw [if_pos
      (hss : (Sentence.mk ∅ 2).cells ⊂ (Sentence.mk badCells c).cells)]
    unfold innerLoop
    simp
  rw [run_check_eq, hf]
  rw [show (famC c).knowledge = [⟨badCells, c⟩, ⟨∅, 2⟩] from rfl]
  rw [run_outer_changed_eq n 0 ⟨badCells, c⟩ [⟨∅, 2⟩] (famC c)
    ⟨badCells, c - 2⟩ [⟨∅, 2⟩] ho]
  rfl

/-- No fuel suffices for any state of the diverging family: the count
only ever decreases by 2, and starting at or below 1 but not at 0 it
never hits `0` or `|cells| = 3`, so no sentence ever becomes certain and
the resolution keeps firing. -/
theorem fam_diverges : ∀ (n : ℕ) (c : ℤ), c ≤ 1 → c ≠ 0 →
    run n (.check (famD c)) = none ∧ run n (.check (famC c)) = none := by
  intro n
  induction n using Nat.strong_induction_on with
  | _ n ih =>
    match n with
    | 0 => exact fun c h1 h2 => ⟨rfl, rfl⟩
    | 1 => exact fun c h1 h2 => ⟨rfl, rfl⟩
    | (m + 2) =>
        intro c h1 h2
        constructor
        · rw [famD_step m c h1 h2]
          exact (ih m (by omega) (c - 2) (by omega) (by omega)).2
        · rw [famC_step m c h1 h2]
          exact (ih m (by omega) (c - 2) (by omega) (by omega)).1

/-- C2 (code bug): the fixpoint procedure does *not* terminate for every
finite knowledge collection.  On the collection `[{} = 2,
{(0,0), (0,1), (0,2)} = 1]` — an empty-celled sentence with a non-zero
count — `check_current_knowledge` recurses forever: the empty cell set
is a strict subset of every non-empty one, the replacement leaves the
total cell count unchanged, and the replaced sentence's count steps
through 1, −1, −3, … without ever reaching certainty.  The spec's
strict-decrease argument fails because an empty subset does not shrink
`B.cells`. -/
theorem check_knowledge_diverges :
    ¬ CheckTerminates
      ⟨8, 8, ∅, ∅, ∅,
       [⟨∅, 2⟩, ⟨{((0:ℤ), (0:ℤ)), ((0:ℤ), (1:ℤ)), ((0:ℤ), (2:ℤ))}, 1⟩]⟩ := by
  rintro ⟨n, hn⟩
  have hd := (fam_diverges n 1 (by omega) (by omega)).1
  rw [show famD 1
    = ⟨8, 8, ∅, ∅, ∅,
       [⟨∅, 2⟩, ⟨{((0:ℤ), (0:ℤ)), ((0:ℤ), (1:ℤ)), ((0:ℤ), (2:ℤ))}, 1⟩]⟩
    from rfl] at hd
  rw [check_current_knowledge, hd] at hn
  simp at hn

/-! ## C1: subset resolution on the spec's concrete case -/

/-- C1: for any four distinct in-bounds cells, with knowledge
`A = {c1,c2,c3} = 1` and `B = {c1,c2,c3,c4} = 2`, the first outer-loop
iteration of `check_current_knowledge` derives the Sentence `{c4} = 1`
(first conjunct), and the full fixpoint run marks `c4` as a mine: the
final state has `mines = {c4}` and retains only `A`. -/
theorem subset_resolution_marks_mine (hgt wdt : ℤ) (c1 c2 c3 c4 : Cell)
    (hb1 : inBounds hgt wdt c1 = true) (hb2 : inBounds hgt wdt c2 = true)
    (hb3 : inBounds hgt wdt c3 = true) (hb4 : inBounds hgt wdt c4 = true)
    (h12 : c1 ≠ c2) (h13 : c1 ≠ c3) (h14 : c1 ≠ c4)
    (h23 : c2 ≠ c3) (h24 : c2 ≠ c4) (h34 : c3 ≠ c4) :
    outerStep ⟨{c1, c2, c3}, 1⟩
        [⟨{c1, c2, c3}, 1⟩, ⟨{c1, c2, c3, c4}, 2⟩]
      = (⟨{c1, c2, c3}, 1⟩, [⟨{c4}, 1⟩], true) ∧
    check_current_knowledge 5
        ⟨hgt, wdt, ∅, ∅, ∅, [⟨{c1, c2, c3}, 1⟩, ⟨{c1, c2, c3, c4}, 2⟩]⟩
      = some ⟨hgt, wdt, ∅, {c4}, ∅, [⟨{c1, c2, c3}, 1⟩]⟩ := by
  have hcard3 : (({c1, c2, c3} : Finset Cell).card : ℤ) = 3 := by
    rw [Finset.card_insert_of_not_mem (by simp [h12, h13]),
        Finset.card_insert_of_not_mem (by simp [h23]),
        Finset.card_singleton]
    norm_num
  have hcard4 : (({c1, c2, c3, c4} : Finset Cell).card : ℤ) = 4 := by
    rw [Finset.card_insert_of_not_mem (by simp [h12, h13, h14]),
        Finset.card_insert_of_not_mem (by simp [h23, h24]),
        Finset.card_insert_of_not_mem (by simp [h34]),
        Finset.card_singleton]
    norm_num
  have hnotin : c4 ∉ ({c1, c2, c3} : Finset Cell) := by
    simp [Ne.symm h14, Ne.symm h24, Ne.symm h34]
  have hAB : ({c1, c2, c3} : Finset Cell) ⊂ {c1, c2, c3, c4} := by
    have hsub : ({c1, c2, c3} : Finset Cell) ⊆ {c1, c2, c3, c4} := by
      intro x hx
      simp only [Finset.mem_insert, Finset.mem_singleton] at hx ⊢
      tauto
    exact (Finset.ssubset_iff_of_subset hsub).mpr
      ⟨c4, by simp, hnotin⟩
  have hdiff : ({c1, c2, c3, c4} : Finset Cell) \ {c1, c2, c3} = {c4} := by
    ext x
    simp only [Finset.mem_sdiff, Finset.mem_insert, Finset.mem_singleton]
    constructor
    · tauto
    · rintro rfl
      refine ⟨by tauto, ?_⟩
      push_neg
      exact ⟨Ne.symm h14, Ne.symm h24, Ne.symm h34⟩
  have hA_km : (Sentence.mk {c1, c2, c3} 1).known_mines = none := by
    show (if (({c1, c2, c3} : Finset Cell).card : ℤ) = 1
      then some ({c1, c2, c3} : Finset Cell) else none) = none
    exact if_neg (by rw [hcard3]; norm_num)
  have hA_ks : (Sentence.mk {c1, c2, c3} 1).known_safes = none := by
    show (if (1 : ℤ) = 0
      then some ({c1, c2, c3} : Finset Cell) else none) = none
    norm_num
  have hB_km : (Sentence.mk {c1, c2, c3, c4} 2).known_mines = none := by
    show (if (({c1, c2, c3, c4} : Finset Cell).card : ℤ) = 2
      then some ({c1, c2, c3, c4} : Finset Cell) else none) = none
    exact if_neg (by rw [hcard4]; norm_num)
  have hB_ks : (Sentence.mk {c1, c2, c3, c4} 2).known_safes = none := by
    show (if (2 : ℤ) = 0
      then some ({c1, c2, c3, c4} : Finset Cell) else none) = none
    norm_num
  have hD_km : (Sentence.mk {c4} 1).known_mines = some {c4} := by
    show (if (({c4} : Finset Cell).card : ℤ) = 1
      then some ({c4} : Finset Cell) else none) = some {c4}
    rw [Finset.card_singleton]
    norm_num
  have houter1 : outerStep ⟨{c1, c2, c3}, 1⟩
      [⟨{c1, c2, c3}, 1⟩, ⟨{c1, c2, c3, c4}, 2⟩]
      = (⟨{c1, c2, c3}, 1⟩, [⟨{c4}, 1⟩], true) := by
    unfold outerStep
    rw [List.erase_cons_head]
    unfold innerLoop
    rw [if_pos (hAB : (Sentence.mk {c1, c2, c3} 1).cells ⊂
      (Sentence.mk {c1, c2, c3, c4} 2).cells)]
    unfold innerLoop
    rw [List.erase_cons_head]
    rw [show (Sentence.mk {c1, c2, c3, c4} 2).cells \
        (Sentence.mk {c1, c2, c3} 1).cells = {c4} from hdiff]
    norm_num
  refine ⟨houter1, ?_⟩
  have hstep0 : forgetStep
      ⟨hgt, wdt, ∅, ∅, ∅, [⟨{c1, c2, c3}, 1⟩, ⟨{c1, c2, c3, c4}, 2⟩]⟩
      = (⟨hgt, wdt, ∅, ∅, ∅,
          [⟨{c1, c2, c3}, 1⟩, ⟨{c1, c2, c3, c4}, 2⟩]⟩, false) := by
    unfold forgetStep
    simp [List.filter, hA_km, hA_ks, hB_km, hB_ks]
  have hf0 : forget_mines_or_safes
      ⟨hgt, wdt, ∅, ∅, ∅, [⟨{c1, c2, c3}, 1⟩, ⟨{c1, c2, c3, c4}, 2⟩]⟩
      = ⟨hgt, wdt, ∅, ∅, ∅,
          [⟨{c1, c2, c3}, 1⟩, ⟨{c1, c2, c3, c4}, 2⟩]⟩ := by
    show forgetLoop 3 _ = _
    unfold forgetLoop
    rw [hstep0]
    simp
  have hmarkA : (Sentence.mk {c1, c2, c3} 1).mark_mine c4
      = Sentence.mk {c1, c2, c3} 1 := by
    unfold Sentence.mark_mine
    rw [if_neg hnotin]
  have hstep1 : forgetStep
      ⟨hgt, wdt, ∅, ∅, ∅, [⟨{c4}, 1⟩, ⟨{c1, c2, c3}, 1⟩]⟩
      = (⟨hgt, wdt, ∅, {c4}, ∅, [⟨{c1, c2, c3}, 1⟩]⟩, true) := by
    unfold forgetStep
    simp [List.filter, hD_km, hA_km, hA_ks, markCellsMine,
      show cellsList {c4} = [c4] from rfl,
      AIState.mark_mine, hmarkA]
  have hstep2 : forgetStep ⟨hgt, wdt, ∅, {c4}, ∅, [⟨{c1, c2, c3}, 1⟩]⟩
      = (⟨hgt, wdt, ∅, {c4}, ∅, [⟨{c1, c2, c3}, 1⟩]⟩, false) := by
    unfold forgetStep
    simp [List.filter, hA_km, hA_ks]
  have hf1 : forget_mines_or_safes
      ⟨hgt, wdt, ∅, ∅, ∅, [⟨{c4}, 1⟩, ⟨{c1, c2, c3}, 1⟩]⟩
      = ⟨hgt, wdt, ∅, {c4}, ∅, [⟨{c1, c2, c3}, 1⟩]⟩ := by
    show forgetLoop 3 _ = _
    unfold forgetLoop
    rw [hstep1]
    simp only [if_true]
    unfold forgetLoop
    rw [hstep2]
    simp
  rw [check_current_knowledge]
  rw [run_check_eq, hf0]
  rw [run_outer_changed_eq 3 0 ⟨{c1, c2, c3}, 1⟩ [⟨{c1, c2, c3, c4}, 2⟩]
    ⟨hgt, wdt, ∅, ∅, ∅, [⟨{c1, c2, c3}, 1⟩, ⟨{c1, c2, c3, c4}, 2⟩]⟩
    ⟨{c1, c2, c3}, 1⟩ [⟨{c4}, 1⟩] houter1]
  show run 3 (.check ⟨hgt, wdt, ∅, ∅, ∅,
    [⟨{c4}, 1⟩, ⟨{c1, c2, c3}, 1⟩]⟩) = _
  rw [run_check_eq, hf1]
  have houter2 : outerStep ⟨{c1, c2, c3}, 1⟩ [⟨{c1, c2, c3}, 1⟩]
      = (⟨{c1, c2, c3}, 1⟩, [], false) := by
    unfold outerStep
    rw [List.erase_cons_head]
    rfl
  rw [run_outer_unchanged_eq 1 0 ⟨{c1, c2, c3}, 1⟩ []
    ⟨hgt, wdt, ∅, {c4}, ∅, [⟨{c1, c2, c3}, 1⟩]⟩
    ⟨{c1, c2, c3}, 1⟩ [] houter2]
  rfl

/-- C1 witness: the concrete instance with cells `(0,0), (0,1), (0,2),
(1,0)` on an 8×8 board; `(1,0)` ends up in `mines`. -/
theorem subset_resolution_marks_mine_witness :
    check_current_knowledge 5
        ⟨8, 8, ∅, ∅, ∅,
         [⟨{((0:ℤ), (0:ℤ)), (0, 1), (0, 2)}, 1⟩,
          ⟨{((0:ℤ), (0:ℤ)), (0, 1), (0, 2), (1, 0)}, 2⟩]⟩
      = some ⟨8, 8, ∅, {((1:ℤ), (0:ℤ))}, ∅,
          [⟨{((0:ℤ), (0:ℤ)), (0, 1), (0, 2)}, 1⟩]⟩ :=
  (subset_resolution_marks_mine 8 8 (0, 0) (0, 1) (0, 2) (1, 0)
    (by decide) (by decide) (by decide) (by decide) (by decide)
    (by decide) (by decide) (by decide) (by decide) (by decide)).2

/-! ## Soundness of the engine under truthful clues (towards C6/C7) -/

/-- `Sentence.mark_mine` with a true mine preserves sentence soundness,
with the mine added to the fact set. -/
theorem sentOK_mark_mine (M mi sa : Finset Cell) (c : Cell) (hc : c ∈ M)
    (S : Sentence) (h : SentOK M mi sa S) :
    SentOK M (insert c mi) sa (S.mark_mine c) := by
  obtain ⟨hSat, hDis⟩ := h
  unfold Sentence.mark_mine
  by_cases hm : c ∈ S.cells
  · rw [if_pos hm]
    constructor
    · have hset : S.cells.erase c ∩ M = (S.cells ∩ M).erase c := by
        ext x
        simp only [Finset.mem_inter, Finset.mem_erase]
        tauto
      have hcm : c ∈ S.cells ∩ M := Finset.mem_inter.mpr ⟨hm, hc⟩
      have hcard : (S.cells.erase c ∩ M).card = (S.cells ∩ M).card - 1 := by
        rw [hset, Finset.card_erase_of_mem hcm]
      have hpos : 1 ≤ (S.cells ∩ M).card :=
        Finset.card_pos.mpr ⟨c, hcm⟩
      show ((S.cells.erase c ∩ M).card : ℤ) = S.count - 1
      omega
    · intro x hx
      have hxc : x ≠ c := Finset.ne_of_mem_erase hx
      have hxS : x ∈ S.cells := Finset.mem_of_mem_erase hx
      obtain ⟨h1, h2⟩ := hDis x hxS
      refine ⟨?_, h2⟩
      rw [Finset.mem_insert]
      push_neg
      exact ⟨hxc, h1⟩
  · rw [if_neg hm]
    refine ⟨hSat, fun x hx => ?_⟩
    obtain ⟨h1, h2⟩ := hDis x hx
    refine ⟨?_, h2⟩
    rw [Finset.mem_insert]
    push_neg
    exact ⟨fun he => hm (he ▸ hx), h1⟩

/-- `Sentence.mark_safe` with a true non-mine preserves sentence
soundness, with the cell added to the safe fact set. -/
theorem sentOK_mark_safe (M mi sa : Finset Cell) (c : Cell) (hc : c ∉ M)
    (S : Sentence) (h : SentOK M mi sa S) :
    SentOK M mi (insert c sa) (S.mark_safe c) := by
  obtain ⟨hSat, hDis⟩ := h
  unfold Sentence.mark_safe
  by_cases hm : c ∈ S.cells
  · rw [if_pos hm]
    constructor
    · have hset : S.cells.erase c ∩ M = S.cells ∩ M := by
        ext x
        simp only [Finset.mem_inter, Finset.mem_erase]
        constructor
        · tauto
        · rintro ⟨h1, h2⟩
          exact ⟨⟨fun he => hc (he ▸ h2), h1⟩, h2⟩
      show ((S.cells.erase c ∩ M).card : ℤ) = S.count
      rw [hset]
      exact hSat
    · intro x hx
      have hxc : x ≠ c := Finset.ne_of_mem_erase hx
      have hxS : x ∈ S.cells := Finset.mem_of_mem_erase hx
      obtain ⟨h1, h2⟩ := hDis x hxS
      refine ⟨h1, ?_⟩
      rw [Finset.mem_insert]
      push_neg
      exact ⟨hxc, h2⟩
  · rw [if_neg hm]
    refine ⟨hSat, fun x hx => ?_⟩
    obtain ⟨h1, h2⟩ := hDis x hx
    refine ⟨h1, ?_⟩
    rw [Finset.mem_insert]
    push_neg
    exact ⟨fun he => hm (he ▸ hx), h2⟩

/-- The resolvent of two sound sentences whose cell sets are nested is
sound: the `b − a` cells unique to `B` hold exactly `cB − cA` mines. -/
theorem sentOK_resolvent (M mi sa : Finset Cell) (E A : Sentence)
    (hsub : E.cells ⊆ A.cells)
    (hE : SentOK M mi sa E) (hA : SentOK M mi sa A) :
    SentOK M mi sa ⟨A.cells \ E.cells, A.count - E.count⟩ := by
  obtain ⟨hSatE, _⟩ := hE
  obtain ⟨hSatA, hDisA⟩ := hA
  constructor
  · have hset : (A.cells \ E.cells) ∩ M = (A.cells ∩ M) \ (E.cells ∩ M) := by
      ext x
      simp only [Finset.mem_inter, Finset.mem_sdiff]
      tauto
    have hsub' : E.cells ∩ M ⊆ A.cells ∩ M :=
      Finset.inter_subset_inter_right hsub
    have hcard : ((A.cells \ E.cells) ∩ M).card
        = (A.cells ∩ M).card - (E.cells ∩ M).card := by
      rw [hset, Finset.card_sdiff hsub']
    have hle : (E.cells ∩ M).card ≤ (A.cells ∩ M).card :=
      Finset.card_le_card hsub'
    show (((A.cells \ E.cells) ∩ M).card : ℤ) = A.count - E.count
    omega
  · intro x hx
    exact hDisA x (Finset.mem_sdiff.mp hx).1

/-- A sound sentence reported certain by `known_mines` has all its cells
in the true mine set. -/
theorem known_mines_all_mines (M mi sa : Finset Cell) (S : Sentence)
    (hOK : SentOK M mi sa S) (h : S.known_mines.isSome = true) :
    ∀ c ∈ S.cells, c ∈ M := by
  have hcc : (S.cells.card : ℤ) = S.count := by
    by_contra hne
    rw [Sentence.known_mines, if_neg hne] at h
    simp at h
  obtain ⟨hSat, _⟩ := hOK
  have hcards : (S.cells ∩ M).card = S.cells.card := by omega
  have hsub : S.cells ∩ M ⊆ S.cells := Finset.inter_subset_left
  have heq : S.cells ∩ M = S.cells :=
    Finset.eq_of_subset_of_card_le hsub (by omega)
  intro c hc
  have : c ∈ S.cells ∩ M := heq.symm ▸ hc
  exact (Finset.mem_inter.mp this).2

/-- A sound sentence reported certain by `known_safes` has none of its
cells in the true mine set. -/
theorem known_safes_no_mines (M mi sa : Finset Cell) (S : Sentence)
    (hOK : SentOK M mi sa S) (h : S.known_safes.isSome = true) :
    ∀ c ∈ S.cells, c ∉ M := by
  have hc0 : S.count = 0 := by
    by_contra hne
    rw [Sentence.known_safes, if_neg hne] at h
    simp at h
  obtain ⟨hSat, _⟩ := hOK
  have hcard : (S.cells ∩ M).card = 0 := by omega
  have hempty : S.cells ∩ M = ∅ := Finset.card_eq_zero.mp hcard
  intro c hc hcM
  have : c ∈ S.cells ∩ M := Finset.mem_inter.mpr ⟨hc, hcM⟩
  rw [hempty] at this
  exact absurd this (Finset.not_mem_empty c)

/-- `MinesweeperAI.mark_mine` with a true mine preserves engine
soundness. -/
theorem soundInv_mark_mine (M : Finset Cell) (s : AIState) (c : Cell)
    (hc : c ∈ M) (h : SoundInv M s) : SoundInv M (s.mark_mine c) := by
  obtain ⟨hmi, hsa, hkn⟩ := h
  refine ⟨?_, hsa, ?_⟩
  · rw [show (s.mark_mine c).mines = insert c s.mines from rfl]
    rw [Finset.insert_subset_iff]
    exact ⟨hc, hmi⟩
  · intro S' hS'
    rw [show (s.mark_mine c).knowledge
      = s.knowledge.map (Sentence.mark_mine · c) from rfl] at hS'
    rw [List.mem_map] at hS'
    obtain ⟨S, hS, rfl⟩ := hS'
    exact sentOK_mark_mine M s.mines s.safes c hc S (hkn S hS)

/-- `MinesweeperAI.mark_safe` with a true non-mine preserves engine
soundness. -/
theorem soundInv_mark_safe (M : Finset Cell) (s : AIState) (c : Cell)
    (hc : c ∉ M) (h : SoundInv M s) : SoundInv M (s.mark_safe c) := by
  obtain ⟨hmi, hsa, hkn⟩ := h
  refine ⟨hmi, ?_, ?_⟩
  · intro x hx
    rw [show (s.mark_safe c).safes = insert c s.safes from rfl,
      Finset.mem_insert] at hx
    rcases hx with rfl | hx
    · exact hc
    · exact hsa x hx
  · intro S' hS'
    rw [show (s.mark_safe c).knowledge
      = s.knowledge.map (Sentence.mark_safe · c) from rfl] at hS'
    rw [List.mem_map] at hS'
    obtain ⟨S, hS, rfl⟩ := hS'
    exact sentOK_mark_safe M s.mines s.safes c hc S (hkn S hS)

/-- Marking a list of true mines preserves engine soundness. -/
theorem soundInv_markCellsMine (M : Finset Cell) :
    ∀ (cs : List Cell) (s : AIState), (∀ c ∈ cs, c ∈ M) →
      SoundInv M s → SoundInv M (markCellsMine s cs)
  | [], s, _, h => h
  | c :: cs, s, hcs, h =>
      soundInv_markCellsMine M cs (s.mark_mine c)
        (fun x hx => hcs x (List.mem_cons_of_mem c hx))
        (soundInv_mark_mine M s c (hcs c (List.mem_cons_self _ _)) h)

/-- Marking a list of true non-mines safe preserves engine soundness. -/
theorem soundInv_markCellsSafe (M : Finset Cell) :
    ∀ (cs : List Cell) (s : AIState), (∀ c ∈ cs, c ∉ M) →
      SoundInv M s → SoundInv M (markCellsSafe s cs)
  | [], s, _, h => h
  | c :: cs, s, hcs, h =>
      soundInv_markCellsSafe M cs (s.mark_safe c)
        (fun x hx => hcs x (List.mem_cons_of_mem c hx))
        (soundInv_mark_safe M s c (hcs c (List.mem_cons_self _ _)) h)

/-- Confirming a list of sentences all of whose cells are true mines
preserves engine soundness. -/
theorem soundInv_foldMines (M : Finset Cell) :
    ∀ (L : List Sentence) (s : AIState),
      (∀ S ∈ L, ∀ c ∈ S.cells, c ∈ M) → SoundInv M s →
      SoundInv M (L.foldl (fun t S => markCellsMine t (cellsList S.cells)) s)
  | [], s, _, h => h
  | S :: L, s, hL, h =>
      soundInv_foldMines M L (markCellsMine s (cellsList S.cells))
        (fun T hT => hL T (List.mem_cons_of_mem S hT))
        (soundInv_markCellsMine M (cellsList S.cells) s
          (fun c hc => hL S (List.mem_cons_self _ _) c ((mem_cellsList _ _).mp hc))
          h)

/-- Confirming a list of sentences none of whose cells are mines
preserves engine soundness. -/
theorem soundInv_foldSafes (M : Finset Cell) :
    ∀ (L : List Sentence) (s : AIState),
      (∀ S ∈ L, ∀ c ∈ S.cells, c ∉ M) → SoundInv M s →
      SoundInv M (L.foldl (fun t S => markCellsSafe t (cellsList S.cells)) s)
  | [], s, _, h => h
  | S :: L, s, hL, h =>
      soundInv_foldSafes M L (markCellsSafe s (cellsList S.cells))
        (fun T hT => hL T (List.mem_cons_of_mem S hT))
        (soundInv_markCellsSafe M (cellsList S.cells) s
          (fun c hc => hL S (List.mem_cons_self _ _) c ((mem_cellsList _ _).mp hc))
          h)

/-- One certainty-extraction pass preserves engine soundness. -/
theorem soundInv_forgetStep (M : Finset Cell) (s : AIState)
    (h : SoundInv M s) : SoundInv M (forgetStep s).1 := by
  obtain ⟨hmi, hsa, hkn⟩ := h
  have hs1 : SoundInv M
      { s with knowledge := s.knowledge.filter (fun S => S.known_mines.isNone && S.known_safes.isNone) } :=
    ⟨hmi, hsa, fun S hS => hkn S (List.mem_of_mem_filter hS)⟩
  have hcm : ∀ S ∈ s.knowledge.filter (fun S => S.known_mines.isSome),
      ∀ c ∈ S.cells, c ∈ M := by
    intro S hS
    rw [List.mem_filter] at hS
    exact known_mines_all_mines M s.mines s.safes S (hkn S hS.1) hS.2
  have hcs : ∀ S ∈ s.knowledge.filter
      (fun S => S.known_mines.isNone && S.known_safes.isSome),
      ∀ c ∈ S.cells, c ∉ M := by
    intro S hS
    rw [List.mem_filter] at hS
    have hright := ((Bool.and_eq_true _ _).mp hS.2).2
    exact known_safes_no_mines M s.mines s.safes S (hkn S hS.1) hright
  exact soundInv_foldSafes M _ _ hcs (soundInv_foldMines M _ _ hcm hs1)

/-- The certainty-extraction loop preserves engine soundness. -/
theorem soundInv_forgetLoop (M : Finset Cell) :
    ∀ (n : ℕ) (s : AIState), SoundInv M s → SoundInv M (forgetLoop n s)
  | 0, _, h => h
  | n + 1, s, h => by
      have hstep := soundInv_forgetStep M s h
      show SoundInv M (if (forgetStep s).2 then forgetLoop n (forgetStep s).1
        else (forgetStep s).1)
      by_cases hb : (forgetStep s).2 = true
      · rw [if_pos hb]
        exact soundInv_forgetLoop M n _ hstep
      · rw [if_neg hb]
        exact hstep

/-- `forget_mines_or_safes` preserves engine soundness. -/
theorem soundInv_forget (M : Finset Cell) (s : AIState)
    (h : SoundInv M s) : SoundInv M (forget_mines_or_safes s) :=
  soundInv_forgetLoop M _ s h

/-- The inner loop of `check_current_knowledge` yields only sound
sentences from sound ones: the running sentence, and everything in the
resulting knowledge list. -/
theorem innerLoop_OK (M mi sa : Finset Cell) :
    ∀ (snap : List Sentence) (E : Sentence) (kn : List Sentence) (ch : Bool),
      SentOK M mi sa E → (∀ S ∈ snap, SentOK M mi sa S) →
      (∀ S ∈ kn, SentOK M mi sa S) →
      SentOK M mi sa (innerLoop E snap kn ch).1 ∧
        ∀ S ∈ (innerLoop E snap kn ch).2.1, SentOK M mi sa S
  | [], E, kn, ch, hE, _, hkn => ⟨hE, hkn⟩
  | A :: rest, E, kn, ch, hE, hsnap, hkn => by
      have hA : SentOK M mi sa A := hsnap A (List.mem_cons_self _ _)
      have hrest : ∀ S ∈ rest, SentOK M mi sa S :=
        fun S hS => hsnap S (List.mem_cons_of_mem A hS)
      rw [innerLoop]
      by_cases h1 : E.cells ⊂ A.cells
      · rw [if_pos h1]
        refine innerLoop_OK M mi sa rest E _ true hE hrest ?_
        intro S hS
        rw [List.mem_append] at hS
        rcases hS with hS | hS
        · exact hkn S (List.mem_of_mem_erase hS)
        · rw [List.mem_singleton] at hS
          subst hS
          exact sentOK_resolvent M mi sa E A h1.subset hE hA
      · rw [if_neg h1]
        by_cases h2 : A.cells ⊂ E.cells
        · rw [if_pos h2]
          exact innerLoop_OK M mi sa rest _ kn true
            (sentOK_resolvent M mi sa A E h2.subset hA hE) hrest hkn
        · rw [if_neg h2]
          exact innerLoop_OK M mi sa rest E kn ch hE hrest hkn

/-- Membership in a Python-style list insertion. -/
theorem mem_pyInsert (i : ℕ) (x a : α) (l : List α)
    (h : a ∈ pyInsert i x l) : a = x ∨ a ∈ l := by
  unfold pyInsert at h
  rw [List.mem_append, List.mem_cons] at h
  rcases h with h | h | h
  · exact Or.inr ((List.take_sublist i l).subset h)
  · exact Or.inl h
  · exact Or.inr ((List.drop_sublist i l).subset h)

/-- The interpreter preserves engine soundness: any state returned from
a sound call frame is sound. -/
theorem soundFrame_run (M : Finset Cell) :
    ∀ (n : ℕ) (k : CallK) (s' : AIState),
      SoundFrame M k → run n k = some s' → SoundInv M s'
  | 0, _, _, _, h => by simp [run] at h
  | n + 1, .check s, s', hk, h => by
      rw [run_check_eq] at h
      have hf : SoundInv M (forget_mines_or_safes s) :=
        soundInv_forget M s hk
      exact soundFrame_run M n
        (.outer (forget_mines_or_safes s).knowledge 0 (forget_mines_or_safes s))
        s' ⟨hf, hf.2.2⟩ h
  | n + 1, .outer [] idx s, s', hk, h => by
      rw [run_outer_nil_eq] at h
      cases h
      exact hk.1
  | n + 1, .outer (E0 :: rest) idx s, s', hk, h => by
      obtain ⟨hInv, hsnap⟩ := hk
      have hE0 : SentOK M s.mines s.safes E0 := hsnap E0 (List.mem_cons_self _ _)
      have hrest : ∀ S ∈ rest, SentOK M s.mines s.safes S :=
        fun S hS => hsnap S (List.mem_cons_of_mem E0 hS)
      have hkn1 : ∀ S ∈ s.knowledge.erase E0, SentOK M s.mines s.safes S :=
        fun S hS => hInv.2.2 S (List.mem_of_mem_erase hS)
      have hloop := innerLoop_OK M s.mines s.safes
        (s.knowledge.erase E0) E0 (s.knowledge.erase E0) false
        hE0 hkn1 hkn1
      rcases hr : outerStep E0 s.knowledge with ⟨E, kn, ch⟩
      rw [show outerStep E0 s.knowledge
        = innerLoop E0 (s.knowledge.erase E0) (s.knowledge.erase E0) false
        from rfl] at hr
      rw [hr] at hloop
      obtain ⟨hE, hknOK⟩ := hloop
      cases ch
      · rw [run_outer_unchanged_eq n idx E0 rest s E kn hr] at h
        refine soundFrame_run M n
          (.outer rest (idx + 1) { s with knowledge := pyInsert (idx + 1) E kn })
          s' ⟨⟨hInv.1, hInv.2.1, ?_⟩, hrest⟩ h
        intro S hS
        rcases mem_pyInsert _ _ _ _ hS with rfl | hS
        · exact hE
        · exact hknOK S hS
      · rw [run_outer_changed_eq n idx E0 rest s E kn hr] at h
        refine soundFrame_run M n
          (.check { s with knowledge := kn ++ [E] })
          s' ⟨hInv.1, hInv.2.1, ?_⟩ h
        intro S hS
        rw [List.mem_append] at hS
        rcases hS with hS | hS
        · exact hknOK S hS
        · rw [List.mem_singleton] at hS
          subst hS
          exact hE

theorem framePres_refl (s : AIState) : FramePres s s :=
  ⟨rfl, rfl, rfl, subset_rfl, subset_rfl⟩

theorem framePres_trans {s t u : AIState}
    (h1 : FramePres s t) (h2 : FramePres t u) : FramePres s u :=
  ⟨h2.1.trans h1.1, h2.2.1.trans h1.2.1, h2.2.2.1.trans h1.2.2.1,
    h1.2.2.2.1.trans h2.2.2.2.1, h1.2.2.2.2.trans h2.2.2.2.2⟩

theorem framePres_set_knowledge (s : AIState) (K : List Sentence) :
    FramePres s { s with knowledge := K } := by
  rcases s with ⟨h, w, mm, mi, sa, kn⟩
  exact ⟨rfl, rfl, rfl, subset_rfl, subset_rfl⟩

theorem framePres_mark_mine (s : AIState) (c : Cell) :
    FramePres s (s.mark_mine c) := by
  rcases s with ⟨h, w, mm, mi, sa, kn⟩
  exact ⟨rfl, rfl, rfl, Finset.subset_insert _ _, subset_rfl⟩

theorem framePres_mark_safe (s : AIState) (c : Cell) :
    FramePres s (s.mark_safe c) := by
  rcases s with ⟨h, w, mm, mi, sa, kn⟩
  exact ⟨rfl, rfl, rfl, subset_rfl, Finset.subset_insert _ _⟩

theorem framePres_markCellsMine :
    ∀ (cs : List Cell) (s : AIState), FramePres s (markCellsMine s cs)
  | [], s => framePres_refl s
  | c :: cs, s =>
      framePres_trans (framePres_mark_mine s c)
        (framePres_markCellsMine cs (s.mark_mine c))

theorem framePres_markCellsSafe :
    ∀ (cs : List Cell) (s : AIState), FramePres s (markCellsSafe s cs)
  | [], s => framePres_refl s
  | c :: cs, s =>
      framePres_trans (framePres_mark_safe s c)
        (framePres_markCellsSafe cs (s.mark_safe c))

theorem framePres_foldMines :
    ∀ (L : List Sentence) (s : AIState),
      FramePres s
        (L.foldl (fun t S => markCellsMine t (cellsList S.cells)) s)
  | [], s => framePres_refl s
  | S :: L, s =>
      framePres_trans (framePres_markCellsMine (cellsList S.cells) s)
        (framePres_foldMines L (markCellsMine s (cellsList S.cells)))

theorem framePres_foldSafes :
    ∀ (L : List Sentence) (s : AIState),
      FramePres s
        (L.foldl (fun t S => markCellsSafe t (cellsList S.cells)) s)
  | [], s => framePres_refl s
  | S :: L, s =>
      framePres_trans (framePres_markCellsSafe (cellsList S.cells) s)
        (framePres_foldSafes L (markCellsSafe s (cellsList S.cells)))

theorem framePres_forgetStep (s : AIState) :
    FramePres s (forgetStep s).1 :=
  framePres_trans (framePres_set_knowledge s _)
    (framePres_trans (framePres_foldMines _ _) (framePres_foldSafes _ _))

theorem framePres_forgetLoop :
    ∀ (n : ℕ) (s : AIState), FramePres s (forgetLoop n s)
  | 0, s => framePres_refl s
  | n + 1, s => by
      show FramePres s (if (forgetStep s).2 then forgetLoop n (forgetStep s).1
        else (forgetStep s).1)
      by_cases hb : (forgetStep s).2 = true
      · rw [if_pos hb]
        exact framePres_trans (framePres_forgetStep s)
          (framePres_forgetLoop n (forgetStep s).1)
      · rw [if_neg hb]
        exact framePres_forgetStep s

theorem framePres_forget (s : AIState) :
    FramePres s (forget_mines_or_safes s) :=
  framePres_forgetLoop _ s

/-- The interpreter never changes the board dimensions or `moves_made`,
and only grows `mines` and `safes`. -/
theorem run_frame :
    ∀ (n : ℕ) (k : CallK) (s' : AIState),
      run n k = some s' → FramePres k.state s'
  | 0, _, _, h => by simp [run] at h
  | n + 1, .check s, s', h => by
      rw [run_check_eq] at h
      exact framePres_trans (framePres_forget s)
        (run_frame n
          (.outer (forget_mines_or_safes s).knowledge 0
            (forget_mines_or_safes s)) s' h)
  | n + 1, .outer [] idx s, s', h => by
      rw [run_outer_nil_eq] at h
      cases h
      exact framePres_refl s
  | n + 1, .outer (E0 :: rest) idx s, s', h => by
      rcases hr : outerStep E0 s.knowledge with ⟨E, kn, ch⟩
      cases ch
      · rw [run_outer_unchanged_eq n idx E0 rest s E kn hr] at h
        exact framePres_trans (framePres_set_knowledge s _)
          (run_frame n (.outer rest (idx + 1)
            { s with knowledge := pyInsert (idx + 1) E kn }) s' h)
      · rw [run_outer_changed_eq n idx E0 rest s E kn hr] at h
        exact framePres_trans (framePres_set_knowledge s _)
          (run_frame n (.check { s with knowledge := kn ++ [E] }) s' h)

/-- The eight neighbour positions visited by `create_sentence` are
pairwise distinct. -/
theorem neighborOffsets_nodup (c : Cell) : (neighborOffsets c).Nodup := by
  rcases c with ⟨i, j⟩
  simp [neighborOffsets]
  omega

/-- The in-bounds neighbour list is duplicate-free. -/
theorem neighborsList_nodup (h w : ℤ) (c : Cell) :
    (neighborsList h w c).Nodup :=
  (neighborOffsets_nodup c).filter _

/-- The Sentence built by `create_sentence` from a truthful clue count
is sound for the engine's current fact sets: subtracting the known-mine
neighbours from the true neighbour-mine count leaves exactly the number
of mines among the unknown neighbours, and the built cell set avoids
both fact sets by construction. -/
theorem create_sentence_OK (M : Finset Cell) (s : AIState) (cell : Cell)
    (count : ℤ) (hmi : s.mines ⊆ M) (hsa : ∀ c ∈ s.safes, c ∉ M)
    (hcount : count = nearby_mines s.height s.width M cell) :
    SentOK M s.mines s.safes (create_sentence s cell count) := by
  constructor
  · show (((List.filter (fun c => decide (c ∉ s.mines ∧ c ∉ s.safes))
        (neighborsList s.height s.width cell)).toFinset ∩ M).card : ℤ)
      = count - ((List.filter (fun c => decide (c ∈ s.mines))
          (neighborsList s.height s.width cell)).length : ℤ)
    have hnd : (neighborsList s.height s.width cell).Nodup :=
      neighborsList_nodup _ _ _
    have hset : (List.filter (fun c => decide (c ∉ s.mines ∧ c ∉ s.safes))
          (neighborsList s.height s.width cell)).toFinset ∩ M
        = (List.filter (fun c => decide (c ∉ s.mines ∧ c ∉ s.safes ∧ c ∈ M))
            (neighborsList s.height s.width cell)).toFinset := by
      ext x
      simp only [Finset.mem_inter, List.mem_toFinset, List.mem_filter,
        decide_eq_true_eq]
      tauto
    rw [hset, List.toFinset_card_of_nodup (hnd.filter _), hcount, nearby_mines]
    have hsplit := List.length_eq_length_filter_add
      (l := List.filter (fun c => decide (c ∈ M))
        (neighborsList s.height s.width cell))
      (fun c => decide (c ∈ s.mines))
    have hA : (List.filter (fun c => decide (c ∈ s.mines))
          (List.filter (fun c => decide (c ∈ M))
            (neighborsList s.height s.width cell)))
        = List.filter (fun c => decide (c ∈ s.mines))
            (neighborsList s.height s.width cell) := by
      rw [List.filter_filter]
      apply List.filter_congr
      intro a _
      by_cases h2 : a ∈ s.mines
      · simp [h2, hmi h2]
      · simp [h2]
    have hB : (List.filter (fun c => !(decide (c ∈ s.mines)))
          (List.filter (fun c => decide (c ∈ M))
            (neighborsList s.height s.width cell)))
        = List.filter (fun c => decide (c ∉ s.mines ∧ c ∉ s.safes ∧ c ∈ M))
            (neighborsList s.height s.width cell) := by
      rw [List.filter_filter]
      apply List.filter_congr
      intro a _
      by_cases hM : a ∈ M
      · by_cases h2 : a ∈ s.mines
        · simp [hM, h2]
        · have h3 : a ∉ s.safes := fun hs => hsa a hs hM
          simp [hM, h2, h3]
      · by_cases h2 : a ∈ s.mines
        · simp [hM, h2]
        · simp [hM, h2]
    rw [hA, hB] at hsplit
    omega
  · intro c hc
    have : c ∈ List.filter (fun c => decide (c ∉ s.mines ∧ c ∉ s.safes))
        (neighborsList s.height s.width cell) := by
      rw [show (create_sentence s cell count).cells
        = (List.filter (fun c => decide (c ∉ s.mines ∧ c ∉ s.safes))
            (neighborsList s.height s.width cell)).toFinset from rfl,
        List.mem_toFinset] at hc
      exact hc
    rw [List.mem_filter, decide_eq_true_eq] at this
    exact this.2

/-- Engine soundness ignores `moves_made`. -/
theorem soundInv_set_moves (M : Finset Cell) (s : AIState)
    (X : Finset Cell) (h : SoundInv M s) :
    SoundInv M { s with moves_made := X } := by
  rcases s with ⟨hh, ww, mm, mi, sa, kn⟩
  exact h

/-- Replacing the knowledge list by sound sentences preserves engine
soundness. -/
theorem soundInv_set_knowledge (M : Finset Cell) (s : AIState)
    (K : List Sentence) (h : SoundInv M s)
    (hK : ∀ S ∈ K, SentOK M s.mines s.safes S) :
    SoundInv M { s with knowledge := K } := by
  rcases s with ⟨hh, ww, mm, mi, sa, kn⟩
  exact ⟨h.1, h.2.1, hK⟩

/-- `add_knowledge` never changes the board dimensions, records exactly
the clue cell as a new move, and keeps every previously-known safe cell
(plus the clue cell) safe. -/
theorem add_knowledge_frame (fuel : ℕ) (s : AIState) (cell : Cell)
    (count : ℤ) (s'' : AIState)
    (h : add_knowledge fuel s cell count = some s'') :
    s''.height = s.height ∧ s''.width = s.width ∧
      s''.moves_made = insert cell s.moves_made ∧
      insert cell s.safes ⊆ s''.safes := by
  obtain ⟨hh, ww, mm, mi, sa, kn⟩ := s
  unfold add_knowledge at h
  split at h
  · simp at h
  · rename_i s2 hrun
    have hf1 := run_frame fuel _ s2 hrun
    split at h
    · cases h
      exact ⟨hf1.1, hf1.2.1, hf1.2.2.1, hf1.2.2.2.2⟩
    · have hf2 := run_frame fuel _ s'' h
      have ht : FramePres s2 s'' :=
        framePres_trans (framePres_set_knowledge s2 _) hf2
      refine ⟨ht.1.trans hf1.1, ht.2.1.trans hf1.2.1,
        ht.2.2.1.trans hf1.2.2.1, ?_⟩
      exact Finset.Subset.trans hf1.2.2.2.2 ht.2.2.2.2

/-- `add_knowledge` with a truthful clue preserves engine soundness (and
the board dimensions). -/
theorem add_knowledge_sound (M : Finset Cell) (fuel : ℕ) (s : AIState)
    (cell : Cell) (count : ℤ) (s'' : AIState)
    (hInv : SoundInv M s) (hcell : cell ∉ M)
    (hcount : count = nearby_mines s.height s.width M cell)
    (h : add_knowledge fuel s cell count = some s'') :
    SoundInv M s'' ∧ s''.height = s.height ∧ s''.width = s.width := by
  have hframe := add_knowledge_frame fuel s cell count s'' h
  refine ⟨?_, hframe.1, hframe.2.1⟩
  obtain ⟨hh, ww, mm, mi, sa, kn⟩ := s
  unfold add_knowledge at h
  have hs1 : SoundInv M (AIState.mark_safe
      ⟨hh, ww, insert cell mm, mi, sa, kn⟩ cell) :=
    soundInv_mark_safe M ⟨hh, ww, insert cell mm, mi, sa, kn⟩ cell hcell
      (show SoundInv M ⟨hh, ww, insert cell mm, mi, sa, kn⟩ from hInv)
  split at h
  · simp at h
  · rename_i s2 hrun
    have hs2 : SoundInv M s2 := soundFrame_run M fuel
      (.check (AIState.mark_safe ⟨hh, ww, insert cell mm, mi, sa, kn⟩ cell))
      s2 hs1 hrun
    have hf1 := run_frame fuel _ s2 hrun
    split at h
    · cases h
      exact hs2
    · have hcount2 : count = nearby_mines s2.height s2.width M cell := by
        rw [hf1.1, hf1.2.1]
        exact hcount
      have hns := create_sentence_OK M s2 cell count hs2.1 hs2.2.1 hcount2
      have hs2' : SoundInv M { s2 with knowledge :=
          s2.knowledge ++ [create_sentence s2 cell count] } := by
        refine soundInv_set_knowledge M s2 _ hs2 ?_
        intro S hS
        rw [List.mem_append] at hS
        rcases hS with hS | hS
        · exact hs2.2.2 S hS
        · rw [List.mem_singleton] at hS
          subst hS
          exact hns
      exact soundFrame_run M fuel
        (.check { s2 with knowledge :=
          s2.knowledge ++ [create_sentence s2 cell count] })
        s'' hs2' h

/-- A sequence of truthful `add_knowledge` calls preserves engine
soundness. -/
theorem applyClues_sound (M : Finset Cell) (bh bw : ℤ) :
    ∀ (clues : List (Cell × ℤ)) (fuel : ℕ) (s s' : AIState),
      SoundInv M s → s.height = bh → s.width = bw →
      TruthfulClues bh bw M clues →
      applyClues fuel s clues = some s' → SoundInv M s'
  | [], fuel, s, s', hInv, _, _, _, happ => by
      rw [applyClues] at happ
      cases happ
      exact hInv
  | (c, k) :: rest, fuel, s, s', hInv, hhh, hww, htruth, happ => by
      rw [applyClues] at happ
      split at happ
      · simp at happ
      · rename_i s1 hadd
        have hhead := htruth (c, k) (List.mem_cons_self _ _)
        have hs := add_knowledge_sound M fuel s c k s1 hInv hhead.1
          (by rw [hhh, hww]; exact hhead.2) hadd
        exact applyClues_sound M bh bw rest fuel s1 s' hs.1
          (hs.2.1.trans hhh) (hs.2.2.trans hww)
          (fun p hp => htruth p (List.mem_cons_of_mem _ hp)) happ

/-- `moves_made ⊆ safes` is preserved by every `add_knowledge` call. -/
theorem applyClues_moves_safes :
    ∀ (clues : List (Cell × ℤ)) (fuel : ℕ) (s s' : AIState),
      s.moves_made ⊆ s.safes → applyClues fuel s clues = some s' →
      s'.moves_made ⊆ s'.safes
  | [], fuel, s, s', hsub, happ => by
      rw [applyClues] at happ
      cases happ
      exact hsub
  | (c, k) :: rest, fuel, s, s', hsub, happ => by
      rw [applyClues] at happ
      split at happ
      · simp at happ
      · rename_i s1 hadd
        have hf := add_knowledge_frame fuel s c k s1 hadd
        refine applyClues_moves_safes rest fuel s1 s' ?_ happ
        rw [hf.2.2.1]
        exact Finset.Subset.trans (Finset.insert_subset_insert _ hsub)
          hf.2.2.2

/-! ## C6: disjointness of the fact sets -/

/-- C6: after any sequence of truthful clues on a fresh engine, the
proven-mine and proven-safe sets are disjoint, and no retained Sentence
contains a cell from either set. -/
theorem truthful_disjointness (M : Finset Cell) (bh bw : ℤ) (fuel : ℕ)
    (clues : List (Cell × ℤ)) (s' : AIState)
    (htruth : TruthfulClues bh bw M clues)
    (happ : applyClues fuel (freshAI bh bw) clues = some s') :
    s'.mines ∩ s'.safes = ∅ ∧
      ∀ S ∈ s'.knowledge, ∀ c ∈ S.cells, c ∉ s'.mines ∧ c ∉ s'.safes := by
  have hfresh : SoundInv M (freshAI bh bw) :=
    ⟨Finset.empty_subset M, by simp [freshAI], by simp [freshAI]⟩
  have hs := applyClues_sound M bh bw clues fuel _ s' hfresh rfl rfl
    htruth happ
  obtain ⟨hmi, hsa, hkn⟩ := hs
  refine ⟨?_, fun S hS c hc => (hkn S hS).2 c hc⟩
  rw [Finset.eq_empty_iff_forall_not_mem]
  intro x hx
  rw [Finset.mem_inter] at hx
  exact hsa x hx.2 (hmi hx.1)

/-- C6 witness: board mine set `{(1,1)}` on a 2×2 board, one truthful
clue `(0,0) = 1`; the resulting fact sets are disjoint. -/
theorem truthful_disjointness_witness :
    TruthfulClues 2 2 {((1:ℤ), (1:ℤ))} [(((0:ℤ), (0:ℤ)), (1:ℤ))] ∧
    (⟨2, 2, {((0:ℤ), (0:ℤ))}, ∅, {((0:ℤ), (0:ℤ))},
        [⟨{((0:ℤ), (1:ℤ)), (1, 0), (1, 1)}, 1⟩]⟩ : AIState).mines ∩
      (⟨2, 2, {((0:ℤ), (0:ℤ))}, ∅, {((0:ℤ), (0:ℤ))},
        [⟨{((0:ℤ), (1:ℤ)), (1, 0), (1, 1)}, 1⟩]⟩ : AIState).safes = ∅ :=
  ⟨by decide,
    (truthful_disjointness {((1:ℤ), (1:ℤ))} 2 2 8
      [(((0:ℤ), (0:ℤ)), (1:ℤ))]
      ⟨2, 2, {((0:ℤ), (0:ℤ))}, ∅, {((0:ℤ), (0:ℤ))},
        [⟨{((0:ℤ), (1:ℤ)), (1, 0), (1, 1)}, 1⟩]⟩
      (by decide) (by decide)).1⟩

/-! ## C7: count bounds for retained sentences -/

/-- C7: after any sequence of truthful clues on a fresh engine, every
retained Sentence satisfies `0 ≤ count ≤ |cells|` (its count is exactly
the number of its cells that are true mines, which lies in that range);
a Sentence that would violate the bound cannot be retained. -/
theorem truthful_count_bounds (M : Finset Cell) (bh bw : ℤ) (fuel : ℕ)
    (clues : List (Cell × ℤ)) (s' : AIState)
    (htruth : TruthfulClues bh bw M clues)
    (happ : applyClues fuel (freshAI bh bw) clues = some s') :
    ∀ S ∈ s'.knowledge, 0 ≤ S.count ∧ S.count ≤ (S.cells.card : ℤ) := by
  have hfresh : SoundInv M (freshAI bh bw) :=
    ⟨Finset.empty_subset M, by simp [freshAI], by simp [freshAI]⟩
  have hs := applyClues_sound M bh bw clues fuel _ s' hfresh rfl rfl
    htruth happ
  intro S hS
  have hSat := (hs.2.2 S hS).1
  have hle : (S.cells ∩ M).card ≤ S.cells.card :=
    Finset.card_le_card Finset.inter_subset_left
  omega

/-- C7 witness: the same truthful scenario as C6's; the one retained
Sentence `{(0,1), (1,0), (1,1)} = 1` satisfies the bounds. -/
theorem truthful_count_bounds_witness :
    TruthfulClues 2 2 {((1:ℤ), (1:ℤ))} [(((0:ℤ), (0:ℤ)), (1:ℤ))] ∧
    (0 ≤ (Sentence.mk {((0:ℤ), (1:ℤ)), (1, 0), (1, 1)} 1).count ∧
      (Sentence.mk {((0:ℤ), (1:ℤ)), (1, 0), (1, 1)} 1).count
        ≤ ((Sentence.mk {((0:ℤ), (1:ℤ)), (1, 0), (1, 1)} 1).cells.card : ℤ)) :=
  ⟨by decide,
    (truthful_count_bounds {((1:ℤ), (1:ℤ))} 2 2 8
      [(((0:ℤ), (0:ℤ)), (1:ℤ))]
      ⟨2, 2, {((0:ℤ), (0:ℤ))}, ∅, {((0:ℤ), (0:ℤ))},
        [⟨{((0:ℤ), (1:ℤ)), (1, 0), (1, 1)}, 1⟩]⟩
      (by decide) (by decide))
      (Sentence.mk {((0:ℤ), (1:ℤ)), (1, 0), (1, 1)} 1) (by decide)⟩

/-! ## C10: moves are immediately safe -/

/-- C10: after any sequence of `add_knowledge` calls on a fresh engine
(no truthfulness needed), every recorded move is in `safes`: each call
inserts the clue cell into both sets, and no operation ever removes a
cell from `safes` (`run_frame`). -/
theorem moves_made_subset_safes (bh bw : ℤ) (fuel : ℕ)
    (clues : List (Cell × ℤ)) (s' : AIState)
    (happ : applyClues fuel (freshAI bh bw) clues = some s') :
    s'.moves_made ⊆ s'.safes :=
  applyClues_moves_safes clues fuel _ s'
    (Finset.empty_subset _) happ

/-- C10 witness: the 2×2 scenario again; the move set `{(0,0)}` is
contained in the safe set. -/
theorem moves_made_subset_safes_witness :
    (⟨2, 2, {((0:ℤ), (0:ℤ))}, ∅, {((0:ℤ), (0:ℤ))},
        [⟨{((0:ℤ), (1:ℤ)), (1, 0), (1, 1)}, 1⟩]⟩ : AIState).moves_made
      ⊆ (⟨2, 2, {((0:ℤ), (0:ℤ))}, ∅, {((0:ℤ), (0:ℤ))},
        [⟨{((0:ℤ), (1:ℤ)), (1, 0), (1, 1)}, 1⟩]⟩ : AIState).safes :=
  moves_made_subset_safes 2 2 8 [(((0:ℤ), (0:ℤ)), (1:ℤ))]
    ⟨2, 2, {((0:ℤ), (0:ℤ))}, ∅, {((0:ℤ), (0:ℤ))},
      [⟨{((0:ℤ), (1:ℤ)), (1, 0), (1, 1)}, 1⟩]⟩
    (by decide)

/-! ## Adequacy of the `forget_mines_or_safes` fuel bound -/

/-- Dropping an element that fails the predicate makes the filtered list
strictly shorter. -/
theorem filter_length_lt {α : Type} (p : α → Bool) :
    ∀ (l : List α) (x : α), x ∈ l → p x = false →
      (l.filter p).length < l.length
  | a :: t, x, hx, hpx => by
      rcases List.mem_cons.mp hx with rfl | hxt
      · rw [List.filter_cons, if_neg (by simp [hpx])]
        have := List.length_filter_le p t
        simp only [List.length_cons]
        omega
      · rw [List.filter_cons]
        by_cases hpa : p a = true
        · rw [if_pos hpa]
          have := filter_length_lt p t x hxt hpx
          simp only [List.length_cons]
          omega
        · rw [if_neg hpa]
          have := filter_length_lt p t x hxt hpx
          simp only [List.length_cons]
          omega

theorem mark_mine_knowledge_length (s : AIState) (c : Cell) :
    (s.mark_mine c).knowledge.length = s.knowledge.length := by
  show (s.knowledge.map (Sentence.mark_mine · c)).length = _
  rw [List.length_map]

theorem mark_safe_knowledge_length (s : AIState) (c : Cell) :
    (s.mark_safe c).knowledge.length = s.knowledge.length := by
  show (s.knowledge.map (Sentence.mark_safe · c)).length = _
  rw [List.length_map]

theorem markCellsMine_knowledge_length :
    ∀ (cs : List Cell) (s : AIState),
      (markCellsMine s cs).knowledge.length = s.knowledge.length
  | [], _ => rfl
  | c :: cs, s =>
      (markCellsMine_knowledge_length cs (s.mark_mine c)).trans
        (mark_mine_knowledge_length s c)

theorem markCellsSafe_knowledge_length :
    ∀ (cs : List Cell) (s : AIState),
      (markCellsSafe s cs).knowledge.length = s.knowledge.length
  | [], _ => rfl
  | c :: cs, s =>
      (markCellsSafe_knowledge_length cs (s.mark_safe c)).trans
        (mark_safe_knowledge_length s c)

theorem foldMines_knowledge_length :
    ∀ (L : List Sentence) (s : AIState),
      ((L.foldl (fun t S => markCellsMine t (cellsList S.cells)) s)
        ).knowledge.length = s.knowledge.length
  | [], _ => rfl
  | S :: L, s =>
      (foldMines_knowledge_length L (markCellsMine s (cellsList S.cells))
        ).trans (markCellsMine_knowledge_length (cellsList S.cells) s)

theorem foldSafes_knowledge_length :
    ∀ (L : List Sentence) (s : AIState),
      ((L.foldl (fun t S => markCellsSafe t (cellsList S.cells)) s)
        ).knowledge.length = s.knowledge.length
  | [], _ => rfl
  | S :: L, s =>
      (foldSafes_knowledge_length L (markCellsSafe s (cellsList S.cells))
        ).trans (markCellsSafe_knowledge_length (cellsList S.cells) s)

/-- Every changed certainty-extraction pass strictly shrinks the
knowledge list — the basis for the `knowledge.length + 1` fuel bound on
the `while True` loop. -/
theorem forgetStep_changed_length (s : AIState)
    (h : (forgetStep s).2 = true) :
    (forgetStep s).1.knowledge.length < s.knowledge.length := by
  rw [show (forgetStep s).1
    = (s.knowledge.filter
        (fun S => S.known_mines.isNone && S.known_safes.isSome)).foldl
        (fun t S => markCellsSafe t (cellsList S.cells))
        ((s.knowledge.filter (fun S => S.known_mines.isSome)).foldl
          (fun t S => markCellsMine t (cellsList S.cells))
          (AIState.mk s.height s.width s.moves_made s.mines s.safes
            (s.knowledge.filter
              (fun S => S.known_mines.isNone && S.known_safes.isNone))))
    from rfl]
  rw [foldSafes_knowledge_length, foldMines_knowledge_length]
  have hch : (s.knowledge.filter
        (fun S => S.known_mines.isSome)).isEmpty = false ∨
      (s.knowledge.filter
        (fun S => S.known_mines.isNone && S.known_safes.isSome)).isEmpty
        = false := by
    have h' : (!((s.knowledge.filter
        (fun S => S.known_mines.isSome)).isEmpty &&
      (s.knowledge.filter
        (fun S => S.known_mines.isNone && S.known_safes.isSome)).isEmpty))
        = true := h
    rcases hb1 : (s.knowledge.filter
        (fun S => S.known_mines.isSome)).isEmpty with _ | _
    · exact Or.inl hb1
    · rcases hb2 : (s.knowledge.filter
          (fun S => S.known_mines.isNone && S.known_safes.isSome)).isEmpty
          with _ | _
      · exact Or.inr hb2
      · rw [hb1, hb2] at h'
        simp at h'
  rcases hch with hch | hch
  · rw [List.isEmpty_eq_false_iff_exists_mem] at hch
    obtain ⟨S, hS⟩ := hch
    rw [List.mem_filter] at hS
    refine filter_length_lt _ s.knowledge S hS.1 ?_
    rw [Bool.and_eq_false_iff]
    left
    rcases ho : S.known_mines with _ | v
    · have h2 := hS.2
      rw [ho] at h2
      simp at h2
    · rfl
  · rw [List.isEmpty_eq_false_iff_exists_mem] at hch
    obtain ⟨S, hS⟩ := hch
    rw [List.mem_filter] at hS
    refine filter_length_lt _ s.knowledge S hS.1 ?_
    rw [Bool.and_eq_false_iff]
    right
    have h2 := (Bool.and_eq_true _ _).mp hS.2
    rcases ho : S.known_safes with _ | v
    · rw [ho] at h2
      simp at h2
    · rfl

/-- Any fuel beyond `knowledge.length` gives the `forget` loop the same
result: the embedding's bound loses nothing against the source's
unbounded `while True`. -/
theorem forgetLoop_stable :
    ∀ (n m : ℕ) (s : AIState), s.knowledge.length < n → n ≤ m →
      forgetLoop m s = forgetLoop n s
  | 0, _, _, hn, _ => absurd hn (by omega)
  | n + 1, m, s, hn, hm => by
      obtain ⟨m', rfl⟩ : ∃ m', m = m' + 1 := ⟨m - 1, by omega⟩
      show (if (forgetStep s).2 then forgetLoop m' (forgetStep s).1
          else (forgetStep s).1)
        = (if (forgetStep s).2 then forgetLoop n (forgetStep s).1
          else (forgetStep s).1)
      by_cases hb : (forgetStep s).2 = true
      · rw [if_pos hb, if_pos hb]
        have hlt := forgetStep_changed_length s hb
        exact forgetLoop_stable n m' (forgetStep s).1 (by omega) (by omega)
      · rw [if_neg hb, if_neg hb]
